import Mathlib

/-!
Verification of the vc4 KMS transaction core (drivers/gpu/drm/vc4/vc4_kms.c)
against its natural-language specification.

The embedding is shallow: every C function relevant to the claims is
translated to a Lean definition operating on `Nat` values, with machine
integer widths made explicit (`% 2^32`, `% 2^64`) wherever the C code can
wrap.  Fallible checks return `Except Int`, mirroring the negative errno
convention (`-EINVAL`, `-ENOSPC`).  The DRM atomic framework (private-object
duplication, commit ordering) is modelled as explicit state passing: a check
receives the published state, mutates a private copy, and either returns the
new private copy or an error.
-/

namespace VC4

/-! ## Constants and bit helpers (linux kernel macros) -/

/-- Number of HVS channels, `#define HVS_NUM_CHANNELS 3`. -/
def HVS_NUM_CHANNELS : Nat := 3

/-- `BIT(n)` on a 32-bit word (value view). -/
def BIT (n : Nat) : Nat := 2 ^ n

/-- `BIT_ULL(n)` on a 64-bit word (value view). -/
def BIT_ULL (n : Nat) : Nat := 2 ^ n

/-- `GENMASK(h, l)`: bits `l..h` set. -/
def GENMASK (h l : Nat) : Nat := 2 ^ (h + 1) - 2 ^ l

/-- `GENMASK_ULL(h, l)`: bits `l..h` set, 64-bit variant. -/
def GENMASK_ULL (h l : Nat) : Nat := 2 ^ (h + 1) - 2 ^ l

/-- Modulus of `unsigned int` (u32). -/
def U32 : Nat := 2 ^ 32

/-- Modulus of `u64` / `unsigned long` (64-bit kernel). -/
def U64 : Nat := 2 ^ 64

/-- `VC4_HVS_CHANNEL_DISABLED`, i.e. `(unsigned int)-1`. -/
def VC4_HVS_CHANNEL_DISABLED : Nat := U32 - 1

/-- Bitwise complement on a 32-bit word: `~x` for `x` a u32 value. -/
def NOT_U32 (x : Nat) : Nat := (U32 - 1) ^^^ x

/-- Bitwise complement on a 64-bit word: `~x` for `x` a u64 value. -/
def NOT_U64 (x : Nat) : Nat := (U64 - 1) ^^^ x

/-- The errno for an invalid configuration; checks return `-EINVAL`. -/
def EINVAL : Int := 22

/-- The errno for resource exhaustion; the load tracker returns `-ENOSPC`. -/
def ENOSPC : Int := 28

/-- `SZ_1G` from linux/sizes.h. -/
def SZ_1G : Nat := 2 ^ 30

/-- `SZ_512M` from linux/sizes.h. -/
def SZ_512M : Nat := 2 ^ 29

/-- u32 wrapping addition. -/
def add32 (a b : Nat) : Nat := (a + b) % U32

/-- u32 wrapping subtraction. -/
def sub32 (a b : Nat) : Nat := (a + (U32 - b % U32)) % U32

/-- u64 wrapping addition. -/
def add64 (a b : Nat) : Nat := (a + b) % U64

/-- u64 wrapping subtraction. -/
def sub64 (a b : Nat) : Nat := (a + (U64 - b % U64)) % U64

/-- Fuelled count-trailing-zeros kernel: returns the index of the least
significant set bit (0 for input 0 once fuel runs out). -/
def ctzAux : Nat → Nat → Nat
  | 0, _ => 0
  | fuel + 1, n => if n % 2 = 1 ∨ n = 0 then 0 else ctzAux fuel (n / 2) + 1

/-- Index of the least significant set bit of `n` (0 if `n = 0`). -/
def ctz (n : Nat) : Nat := ctzAux n n

/-- C `ffs`: 1-based position of the least significant set bit, 0 if none.
The muxing code uses `ffs(matching_channels) - 1`. -/
def ffs (n : Nat) : Nat := if n = 0 then 0 else ctz n + 1

theorem ctzAux_spec (fuel : Nat) : ∀ n, n ≤ fuel → n ≠ 0 →
    n.testBit (ctzAux fuel n) = true ∧ ∀ b < ctzAux fuel n, n.testBit b = false := by
  induction fuel with
  | zero => intro n hle hne; omega
  | succ fuel ih =>
    intro n hle hne
    by_cases hodd : n % 2 = 1 ∨ n = 0
    · rcases hodd with hodd | rfl
      · constructor
        · simp [ctzAux, hodd, Nat.testBit_zero]
        · intro b hb
          simp [ctzAux, hodd] at hb
      · exact absurd rfl hne
    · push_neg at hodd
      obtain ⟨heven, -⟩ := hodd
      have hne2 : n / 2 ≠ 0 := by omega
      have hle2 : n / 2 ≤ fuel := by omega
      obtain ⟨h1, h2⟩ := ih (n / 2) hle2 hne2
      have hstep : ctzAux (fuel + 1) n = ctzAux fuel (n / 2) + 1 := by
        simp [ctzAux, heven, hne]
      rw [hstep]
      constructor
      · simpa [Nat.testBit_succ] using h1
      · intro b hb
        match b with
        | 0 => simp [Nat.testBit_zero]; omega
        | b + 1 =>
          have : b < ctzAux fuel (n / 2) := by omega
          simpa [Nat.testBit_succ] using h2 b this

theorem ctz_testBit {n : Nat} (h : n ≠ 0) : n.testBit (ctz n) = true :=
  (ctzAux_spec n n le_rfl h).1

theorem ctz_least {n : Nat} (h : n ≠ 0) : ∀ b < ctz n, n.testBit b = false :=
  (ctzAux_spec n n le_rfl h).2

theorem ctz_lt_of_lt_two_pow {n w : Nat} (h : n ≠ 0) (hw : n < 2 ^ w) : ctz n < w := by
  by_contra hcon
  push_neg at hcon
  have := ctz_testBit h
  have hfalse : n.testBit (ctz n) = false :=
    Nat.testBit_eq_false_of_lt (lt_of_lt_of_le hw (Nat.pow_le_pow_right (by norm_num) hcon))
  rw [this] at hfalse
  simp at hfalse

/-! ## Generic bit lemmas -/

theorem land_two_pow (x n : Nat) : x &&& 2 ^ n = if x.testBit n then 2 ^ n else 0 := by
  apply Nat.eq_of_testBit_eq
  intro i
  by_cases hin : n = i
  · subst hin
    cases h : x.testBit n <;> simp [Nat.testBit_land, h, Nat.testBit_two_pow_self]
  · cases h : x.testBit n <;>
      simp [Nat.testBit_land, h, Nat.testBit_two_pow_of_ne hin, Nat.zero_testBit]

theorem land_two_pow_ne_zero_iff (x n : Nat) : x &&& 2 ^ n ≠ 0 ↔ x.testBit n = true := by
  rw [land_two_pow]
  cases h : x.testBit n
  · simp
  · simp

theorem testBit_NOT_U32 (c b : Nat) (hc : c < 32) :
    (NOT_U32 (BIT c)).testBit b = (decide (b < 32) && !decide (b = c)) := by
  have h1 : (U32 - 1 : Nat) = 2 ^ 32 - 1 := rfl
  rw [NOT_U32, BIT, h1, Nat.testBit_xor, Nat.testBit_two_pow_sub_one, Nat.testBit_two_pow]
  by_cases hbc : c = b
  · subst hbc; simp [hc]
  · have hne : ¬ b = c := fun h => hbc h.symm
    simp [hbc, hne]

/-! ## Color-matrix (CTM) unit -/

/-- Converts a DRM S31.32 value to the HW S0.9 format
(`vc4_ctm_s31_32_to_s0_9`).  The input is a u64 value; `in & BIT_ULL(63)`
tests the sign bit, `in & GENMASK_ULL(62, 32)` tests the integer bits, and
`(in >> 23) & GENMASK(8, 0)` extracts the 9 most significant fractional
bits. -/
def vc4_ctm_s31_32_to_s0_9 (x : Nat) : Nat :=
  let r : Nat := if x &&& BIT_ULL 63 ≠ 0 then BIT 9 else 0
  if x &&& GENMASK_ULL 62 32 > 0 then
    r ||| GENMASK 8 0
  else
    r ||| ((x >>> 23) &&& GENMASK 8 0)

/-- The per-coefficient admission test from `vc4_ctm_atomic_check`:
`val &= ~BIT_ULL(63); if (val > BIT_ULL(32)) return -EINVAL;`.
Returns `true` when the coefficient is representable (not rejected). -/
def ctm_coeff_in_range (val : Nat) : Bool :=
  decide (val &&& NOT_U64 (BIT_ULL 63) ≤ BIT_ULL 32)

/-- All nine matrix coefficients pass the range test (the loop over
`ctm->matrix` in `vc4_ctm_atomic_check`). -/
def ctm_matrix_ok (m : List Nat) : Bool := m.all ctm_coeff_in_range

/-- `struct drm_color_ctm`: the nine u64 S31.32 coefficients. -/
structure drm_color_ctm where
  matrix : List Nat
deriving DecidableEq

/-- `struct vc4_ctm_state` (its driver fields): the staged matrix pointer and
the owning FIFO slot (`0` disables the CTM, `k ≥ 1` means the output on
channel `k - 1` owns it). -/
structure vc4_ctm_state where
  ctm : Option drm_color_ctm
  fifo : Nat
deriving DecidableEq

/-- One CRTC as seen by `vc4_ctm_atomic_check`: the old and new CTM
properties of its state and the channel assigned by the muxing check. -/
structure CtmCrtcEntry where
  old_ctm : Option drm_color_ctm
  new_ctm : Option drm_color_ctm
  assigned_channel : Nat
deriving DecidableEq

/-- `vc4_ctm_duplicate_state`: `kmemdup` of the published state — a field
copy. -/
def vc4_ctm_duplicate_state (s : vc4_ctm_state) : vc4_ctm_state := s

/-- `vc4_get_ctm_state` as used lazily in the check: reuse the private copy
if one was already obtained in this transaction, otherwise duplicate the
published state. -/
def vc4_get_ctm_state (st : Option vc4_ctm_state) (pub : vc4_ctm_state) : vc4_ctm_state :=
  st.getD (vc4_ctm_duplicate_state pub)

/-- First loop of `vc4_ctm_atomic_check`: for every CRTC whose CTM is being
disabled (`!new_crtc_state->ctm && old_crtc_state->ctm`), obtain the private
CTM state and set `fifo = 0`.  Returns the private state if one was
obtained, `none` otherwise. -/
def ctm_disable_pass (pub : vc4_ctm_state) (l : List CtmCrtcEntry) : Option vc4_ctm_state :=
  l.foldl (fun st e =>
    if e.new_ctm = none ∧ e.old_ctm ≠ none then
      some { vc4_get_ctm_state st pub with fifo := 0 }
    else st) none

/-- Second loop of `vc4_ctm_atomic_check`: skip CRTCs whose CTM did not
change; for a changed CTM obtain the private state, and when the new CTM is
present, reject an owner conflicting with the slot value current at that
point (`-EINVAL`), reject an unrepresentable coefficient (`-EINVAL`), and
otherwise record the new owner slot (`assigned_channel + 1`) and matrix.

The coefficient loop (`for (i = 0; i < ARRAY_SIZE(ctm->matrix); i++)`)
reuses the CRTC loop's iteration variable `i`, so a successful claim leaves
`i = 9`; the CRTC loop's `i++` then exceeds `mode_config.num_crtc` (at most
6 CRTCs exist on this device, fewer than the 9 matrix entries) and the loop
terminates.  The scan therefore ends at the first successful claim and
later CRTCs are never examined. -/
def ctm_claim_pass (pub : vc4_ctm_state) :
    Option vc4_ctm_state → List CtmCrtcEntry → Except Int (Option vc4_ctm_state)
  | st, [] => .ok st
  | st, e :: rest =>
    if e.new_ctm = e.old_ctm then ctm_claim_pass pub st rest
    else
      let s := vc4_get_ctm_state st pub
      match e.new_ctm with
      | some m =>
        let fifo := e.assigned_channel + 1
        if s.fifo ≠ 0 ∧ s.fifo ≠ fifo then .error (-EINVAL)
        else if ctm_matrix_ok m.matrix then
          .ok (some { s with fifo := fifo, ctm := some m })
        else .error (-EINVAL)
      | none => ctm_claim_pass pub (some s) rest

/-- `vc4_ctm_atomic_check`: the disable pass followed by the claim pass
(including its early exit after the first successful claim).  Returns the
private CTM state obtained during the check (`none` when no CRTC touched
the CTM), or `-EINVAL`. -/
def vc4_ctm_atomic_check (pub : vc4_ctm_state) (l : List CtmCrtcEntry) :
    Except Int (Option vc4_ctm_state) :=
  ctm_claim_pass pub (ctm_disable_pass pub l) l

/-! ## Bit-level facts about the S0.9 conversion -/

theorem land_ne_zero_iff (a b : Nat) :
    a &&& b ≠ 0 ↔ ∃ i, a.testBit i = true ∧ b.testBit i = true := by
  constructor
  · intro h
    by_contra hcon
    push_neg at hcon
    apply h
    apply Nat.zero_of_testBit_eq_false
    intro i
    rw [Nat.testBit_land]
    cases ha : a.testBit i
    · simp
    · simpa using hcon i ha
  · rintro ⟨i, ha, hb⟩ h0
    have : (a &&& b).testBit i = true := by rw [Nat.testBit_land, ha, hb]; rfl
    rw [h0] at this
    simp at this

theorem testBit_GENMASK_ULL_62_32 (b : Nat) :
    (GENMASK_ULL 62 32).testBit b = (decide (32 ≤ b) && decide (b ≤ 62)) := by
  have h : GENMASK_ULL 62 32 = (2 ^ 63 - 1) ^^^ (2 ^ 32 - 1) := by decide
  rw [h, Nat.testBit_xor, Nat.testBit_two_pow_sub_one, Nat.testBit_two_pow_sub_one]
  by_cases h1 : b < 32 <;> by_cases h2 : b < 63 <;>
    simp [h1, h2] <;> omega

theorem or_sign_frac (s g : Nat) (hs : s = 2 ^ 9 ∨ s = 0) (hg : g < 2 ^ 9) :
    ((s ||| g).testBit 9 = decide (s = 2 ^ 9))
    ∧ (s ||| g) &&& (2 ^ 9 - 1) = g
    ∧ (s ||| g) < 2 ^ 10 := by
  have hg9 : g.testBit 9 = false := Nat.testBit_eq_false_of_lt hg
  refine ⟨?_, ?_, ?_⟩
  · rcases hs with rfl | rfl <;> rw [Nat.testBit_lor, hg9] <;> decide
  · apply Nat.eq_of_testBit_eq
    intro i
    rw [Nat.testBit_land, Nat.testBit_lor, Nat.testBit_two_pow_sub_one]
    by_cases hi : i < 9
    · have hsi : s.testBit i = false := by
        rcases hs with rfl | rfl
        · exact Nat.testBit_two_pow_of_ne (by omega)
        · exact Nat.zero_testBit i
      simp [hsi, hi]
    · have hgi : g.testBit i = false :=
        Nat.testBit_eq_false_of_lt
          (lt_of_lt_of_le hg (Nat.pow_le_pow_right (by norm_num) (by omega)))
      simp [hgi, hi]
  · refine Nat.or_lt_two_pow ?_ (lt_trans hg (by norm_num))
    rcases hs with rfl | rfl <;> norm_num

/-- C6 helper: the sign test `in & BIT_ULL(63)` is the test of bit 63. -/
theorem sign_cond_iff (x : Nat) : (x &&& BIT_ULL 63 ≠ 0) ↔ x.testBit 63 = true := by
  have h : BIT_ULL 63 = 2 ^ 63 := rfl
  rw [h]
  exact land_two_pow_ne_zero_iff x 63

/-- C6: for every S31.32 input, the S0.9 conversion puts the input's sign bit
(bit 63) at result bit 9; the 9 low result bits saturate to all-ones exactly
when some integer bit (62..32) of the input is set, and otherwise hold the
input's bits 31..23; and the result always fits in 10 bits. -/
theorem ctm_s31_32_to_s0_9_correct (x : Nat) :
    (vc4_ctm_s31_32_to_s0_9 x).testBit 9 = x.testBit 63
    ∧ (vc4_ctm_s31_32_to_s0_9 x &&& GENMASK 8 0
        = if 0 < x &&& GENMASK_ULL 62 32 then GENMASK 8 0 else (x >>> 23) &&& GENMASK 8 0)
    ∧ (0 < x &&& GENMASK_ULL 62 32 ↔ ∃ b, 32 ≤ b ∧ b ≤ 62 ∧ x.testBit b = true)
    ∧ vc4_ctm_s31_32_to_s0_9 x < 2 ^ 10 := by
  have hmask : GENMASK 8 0 = 2 ^ 9 - 1 := by decide
  have hint : (0 < x &&& GENMASK_ULL 62 32 ↔ ∃ b, 32 ≤ b ∧ b ≤ 62 ∧ x.testBit b = true) := by
    rw [Nat.pos_iff_ne_zero, land_ne_zero_iff]
    constructor
    · rintro ⟨i, hx, hm⟩
      rw [testBit_GENMASK_ULL_62_32] at hm
      simp at hm
      exact ⟨i, hm.1, hm.2, hx⟩
    · rintro ⟨b, h1, h2, hx⟩
      refine ⟨b, hx, ?_⟩
      rw [testBit_GENMASK_ULL_62_32]
      simp [h1, h2]
  have hfr : (x >>> 23) &&& GENMASK 8 0 < 2 ^ 9 :=
    lt_of_le_of_lt Nat.and_le_right (by decide)
  have hgm : GENMASK 8 0 < 2 ^ 9 := by decide
  have hval : vc4_ctm_s31_32_to_s0_9 x =
      (if x &&& BIT_ULL 63 ≠ 0 then (2:Nat) ^ 9 else 0) |||
      (if 0 < x &&& GENMASK_ULL 62 32 then GENMASK 8 0 else (x >>> 23) &&& GENMASK 8 0) := by
    rw [vc4_ctm_s31_32_to_s0_9]
    by_cases h1 : x &&& BIT_ULL 63 ≠ 0 <;> by_cases h2 : 0 < x &&& GENMASK_ULL 62 32 <;>
      simp [h1, h2, BIT]
  set g : Nat := if 0 < x &&& GENMASK_ULL 62 32 then GENMASK 8 0 else (x >>> 23) &&& GENMASK 8 0
    with hg_def
  have hg : g < 2 ^ 9 := by
    rw [hg_def]
    split
    · exact hgm
    · exact hfr
  set s : Nat := if x &&& BIT_ULL 63 ≠ 0 then (2:Nat) ^ 9 else 0 with hs_def
  have hs : s = 2 ^ 9 ∨ s = 0 := by
    rw [hs_def]
    split
    · exact Or.inl rfl
    · exact Or.inr rfl
  obtain ⟨hb9, hlow, hlt⟩ := or_sign_frac s g hs hg
  have hsign : decide (s = 2 ^ 9) = x.testBit 63 := by
    rw [hs_def]
    by_cases h : x &&& BIT_ULL 63 ≠ 0
    · rw [if_pos h, (sign_cond_iff x).mp h]
      decide
    · rw [if_neg h]
      have hx63 : x.testBit 63 = false := by
        cases hx : x.testBit 63
        · rfl
        · exact absurd ((sign_cond_iff x).mpr hx) h
      rw [hx63]
      decide
  rw [hval]
  refine ⟨by rw [hb9, hsign], ?_, hint, hlt⟩
  rw [hmask]
  exact hlow

/-- C5: a coefficient is rejected exactly when its value with the sign bit
cleared exceeds `2^32`; the boundary `2^32` (1.0) is accepted and saturates
to the all-ones fraction, while `2^33` (2.0) is rejected, both at the
predicate level and through the full `vc4_ctm_atomic_check`. -/
theorem ctm_coeff_threshold_correct :
    (∀ v, ctm_coeff_in_range v = false ↔ 2 ^ 32 < v &&& (2 ^ 63 - 1))
    ∧ ctm_coeff_in_range (BIT_ULL 32) = true
    ∧ vc4_ctm_s31_32_to_s0_9 (BIT_ULL 32) = GENMASK 8 0
    ∧ ctm_coeff_in_range (2 * BIT_ULL 32) = false
    ∧ vc4_ctm_atomic_check ⟨none, 0⟩ [⟨none, some ⟨List.replicate 9 (BIT_ULL 32)⟩, 0⟩]
        = .ok (some ⟨some ⟨List.replicate 9 (BIT_ULL 32)⟩, 1⟩)
    ∧ vc4_ctm_atomic_check ⟨none, 0⟩ [⟨none, some ⟨List.replicate 9 (2 * BIT_ULL 32)⟩, 0⟩]
        = .error (-EINVAL) := by
  refine ⟨?_, by decide, by decide, by decide, by rfl, by rfl⟩
  intro v
  have hmask : NOT_U64 (BIT_ULL 63) = 2 ^ 63 - 1 := by decide
  have hbit : BIT_ULL 32 = 2 ^ 32 := rfl
  rw [ctm_coeff_in_range, hmask, hbit]
  simp [Nat.not_le]

/-! ## CTM ownership: helper lemmas over the claim pass -/

theorem ctm_claim_pass_error_code (pub : vc4_ctm_state) :
    ∀ (l : List CtmCrtcEntry) (st : Option vc4_ctm_state) (err : Int),
      ctm_claim_pass pub st l = .error err → err = -EINVAL := by
  intro l
  induction l with
  | nil => intro st err h; simp [ctm_claim_pass] at h
  | cons h tl ih =>
    intro st err hrun
    by_cases hskip : h.new_ctm = h.old_ctm
    · rw [ctm_claim_pass, if_pos hskip] at hrun
      exact ih st err hrun
    · rw [ctm_claim_pass, if_neg hskip] at hrun
      cases hm : h.new_ctm with
      | none =>
        rw [hm] at hrun
        simp only at hrun
        exact ih _ err hrun
      | some m =>
        rw [hm] at hrun
        simp only at hrun
        by_cases hconf : (vc4_get_ctm_state st pub).fifo ≠ 0 ∧
            (vc4_get_ctm_state st pub).fifo ≠ h.assigned_channel + 1
        · rw [if_pos hconf] at hrun
          exact (Except.error.injEq _ _ |>.mp hrun).symm ▸ rfl
        · rw [if_neg hconf] at hrun
          by_cases hmok : ctm_matrix_ok m.matrix
          · rw [if_pos hmok] at hrun
            exact absurd hrun (by simp)
          · rw [if_neg hmok] at hrun
            exact (Except.error.injEq _ _ |>.mp hrun).symm ▸ rfl

theorem ctm_claim_pass_unchanged (pub : vc4_ctm_state) :
    ∀ (l : List CtmCrtcEntry) (st : Option vc4_ctm_state),
      (∀ x ∈ l, x.new_ctm = x.old_ctm) → ctm_claim_pass pub st l = .ok st := by
  intro l
  induction l with
  | nil => intro st _; rfl
  | cons h tl ih =>
    intro st hall
    rw [ctm_claim_pass, if_pos (hall h (List.mem_cons_self h tl))]
    exact ih st fun x hx => hall x (List.mem_cons_of_mem h hx)

theorem ctm_claim_pass_skip_prefix (pub : vc4_ctm_state) :
    ∀ (l1 l2 : List CtmCrtcEntry) (st : Option vc4_ctm_state),
      (∀ x ∈ l1, x.new_ctm = x.old_ctm) →
      ctm_claim_pass pub st (l1 ++ l2) = ctm_claim_pass pub st l2 := by
  intro l1
  induction l1 with
  | nil => intro l2 st _; rfl
  | cons h tl ih =>
    intro l2 st hall
    rw [List.cons_append, ctm_claim_pass, if_pos (hall h (List.mem_cons_self h tl))]
    exact ih l2 st fun x hx => hall x (List.mem_cons_of_mem h hx)

/-- An entry that triggers the CTM disable pass. -/
def disablesMatrix (e : CtmCrtcEntry) : Prop :=
  e.new_ctm = none ∧ e.old_ctm ≠ none

theorem ctm_disable_pass_skip (pub : vc4_ctm_state) :
    ∀ (l : List CtmCrtcEntry) (st : Option vc4_ctm_state),
      (∀ x ∈ l, ¬ disablesMatrix x) →
      l.foldl (fun st e =>
        if e.new_ctm = none ∧ e.old_ctm ≠ none then
          some { vc4_get_ctm_state st pub with fifo := 0 }
        else st) st = st := by
  intro l
  induction l with
  | nil => intro st _; rfl
  | cons h tl ih =>
    intro st hall
    rw [List.foldl_cons,
      if_neg (show ¬(h.new_ctm = none ∧ h.old_ctm ≠ none) from hall h (List.mem_cons_self h tl))]
    exact ih st fun x hx => hall x (List.mem_cons_of_mem h hx)

theorem ctm_disable_pass_none (pub : vc4_ctm_state) (l : List CtmCrtcEntry)
    (h : ∀ x ∈ l, ¬ disablesMatrix x) : ctm_disable_pass pub l = none :=
  ctm_disable_pass_skip pub l none h

theorem ctm_claim_pass_cons_none (pub : vc4_ctm_state) (st : Option vc4_ctm_state)
    (e : CtmCrtcEntry) (rest : List CtmCrtcEntry)
    (hne : e.new_ctm ≠ e.old_ctm) (hm : e.new_ctm = none) :
    ctm_claim_pass pub st (e :: rest)
      = ctm_claim_pass pub (some (vc4_get_ctm_state st pub)) rest := by
  rw [ctm_claim_pass, if_neg hne, hm]

theorem ctm_claim_pass_cons_claim (pub : vc4_ctm_state) (st : Option vc4_ctm_state)
    (e : CtmCrtcEntry) (rest : List CtmCrtcEntry) (m : drm_color_ctm)
    (hne : e.new_ctm ≠ e.old_ctm) (hm : e.new_ctm = some m)
    (hnoconf : ¬((vc4_get_ctm_state st pub).fifo ≠ 0 ∧
        (vc4_get_ctm_state st pub).fifo ≠ e.assigned_channel + 1))
    (hok : ctm_matrix_ok m.matrix = true) :
    ctm_claim_pass pub st (e :: rest)
      = .ok (some { vc4_get_ctm_state st pub with
                    fifo := e.assigned_channel + 1, ctm := some m }) := by
  rw [ctm_claim_pass, if_neg hne, hm]
  simp only
  rw [if_neg hnoconf, if_pos hok]

theorem ctm_claim_pass_cons_conflict (pub : vc4_ctm_state) (st : Option vc4_ctm_state)
    (e : CtmCrtcEntry) (rest : List CtmCrtcEntry) (m : drm_color_ctm)
    (hne : e.new_ctm ≠ e.old_ctm) (hm : e.new_ctm = some m)
    (hconf : (vc4_get_ctm_state st pub).fifo ≠ 0 ∧
        (vc4_get_ctm_state st pub).fifo ≠ e.assigned_channel + 1) :
    ctm_claim_pass pub st (e :: rest) = .error (-EINVAL) := by
  rw [ctm_claim_pass, if_neg hne, hm]
  simp only
  rw [if_pos hconf]

theorem ctm_disable_pass_single (pub : vc4_ctm_state) (l1 l2 : List CtmCrtcEntry)
    (d : CtmCrtcEntry) (h1 : ∀ x ∈ l1, ¬ disablesMatrix x) (h2 : ∀ x ∈ l2, ¬ disablesMatrix x)
    (hd : disablesMatrix d) :
    ctm_disable_pass pub (l1 ++ d :: l2) = some ⟨pub.ctm, 0⟩ := by
  rw [ctm_disable_pass, List.foldl_append, ctm_disable_pass_skip pub l1 none h1,
    List.foldl_cons, if_pos (show d.new_ctm = none ∧ d.old_ctm ≠ none from hd)]
  exact ctm_disable_pass_skip pub l2 _ h2

/-- C1 counterexample: both halves of the claim fail on the code.  (i) A
transaction in which two distinct outputs (channels 0 and 1) both enable
representable matrices is accepted with the first claimer's slot — not
rejected — because the coefficient loop reuses the CRTC loop index, ending
the scan after the first successful claim.  (ii) A transaction in which
exactly one output enables a representable matrix is rejected when the
published state records a different owner slot that nothing releases. -/
theorem ctm_admission_check_counterexample :
    ctm_matrix_ok (List.replicate 9 0) = true
    ∧ vc4_ctm_atomic_check ⟨none, 0⟩
        [⟨none, some ⟨List.replicate 9 0⟩, 0⟩, ⟨none, some ⟨List.replicate 9 0⟩, 1⟩]
      = .ok (some ⟨some ⟨List.replicate 9 0⟩, 1⟩)
    ∧ vc4_ctm_atomic_check ⟨some ⟨List.replicate 9 0⟩, 2⟩
        [⟨none, some ⟨List.replicate 9 0⟩, 0⟩] = .error (-EINVAL) :=
  ⟨by decide, by rfl, by rfl⟩

/-- C1 (amended): the first output whose CTM changed to a present matrix
decides the check.  (a) When its coefficients are representable and the
slot value current at that point — the published owner slot, or 0 after a
release in the same transaction — is 0 or equals its `assigned_channel + 1`,
the check accepts with owning slot `assigned_channel + 1`, regardless of
any later outputs (in particular a second distinct claimer is never
examined).  (b) When that slot value is non-zero and different, the check
rejects with `-EINVAL`. -/
theorem ctm_first_claim_decides :
    (∀ (pub : vc4_ctm_state) (l1 rest : List CtmCrtcEntry) (e : CtmCrtcEntry)
       (m : drm_color_ctm),
       (∀ x ∈ l1, x.new_ctm = x.old_ctm) →
       e.new_ctm = some m → e.new_ctm ≠ e.old_ctm → ctm_matrix_ok m.matrix = true →
       ((vc4_get_ctm_state (ctm_disable_pass pub (l1 ++ e :: rest)) pub).fifo = 0
         ∨ (vc4_get_ctm_state (ctm_disable_pass pub (l1 ++ e :: rest)) pub).fifo
             = e.assigned_channel + 1) →
       vc4_ctm_atomic_check pub (l1 ++ e :: rest)
         = .ok (some ⟨some m, e.assigned_channel + 1⟩))
    ∧ (∀ (pub : vc4_ctm_state) (l1 rest : List CtmCrtcEntry) (e : CtmCrtcEntry)
         (m : drm_color_ctm),
       (∀ x ∈ l1, x.new_ctm = x.old_ctm) →
       e.new_ctm = some m → e.new_ctm ≠ e.old_ctm →
       (vc4_get_ctm_state (ctm_disable_pass pub (l1 ++ e :: rest)) pub).fifo ≠ 0 →
       (vc4_get_ctm_state (ctm_disable_pass pub (l1 ++ e :: rest)) pub).fifo
           ≠ e.assigned_channel + 1 →
       vc4_ctm_atomic_check pub (l1 ++ e :: rest) = .error (-EINVAL)) := by
  constructor
  · intro pub l1 rest e m h1 hm hne hok hpre
    have hconf : ¬((vc4_get_ctm_state (ctm_disable_pass pub (l1 ++ e :: rest)) pub).fifo ≠ 0
        ∧ (vc4_get_ctm_state (ctm_disable_pass pub (l1 ++ e :: rest)) pub).fifo
            ≠ e.assigned_channel + 1) := by
      rcases hpre with hp | hp <;> simp [hp]
    rw [vc4_ctm_atomic_check, ctm_claim_pass_skip_prefix pub l1 (e :: rest) _ h1,
      ctm_claim_pass_cons_claim pub _ e rest m hne hm hconf hok]
  · intro pub l1 rest e m h1 hm hne hf0 hfneq
    rw [vc4_ctm_atomic_check, ctm_claim_pass_skip_prefix pub l1 (e :: rest) _ h1,
      ctm_claim_pass_cons_conflict pub _ e rest m hne hm ⟨hf0, hfneq⟩]

/-- Witness for `ctm_first_claim_decides`: the first claimer (channel 0)
is accepted even with a second distinct claimer (channel 1) behind it; a
single claimer against a foreign published owner (slot 2) is rejected. -/
theorem ctm_first_claim_decides_witness :
    vc4_ctm_atomic_check ⟨none, 0⟩
        [⟨none, some ⟨List.replicate 9 0⟩, 0⟩, ⟨none, some ⟨List.replicate 9 0⟩, 1⟩]
      = .ok (some ⟨some ⟨List.replicate 9 0⟩, 1⟩)
    ∧ vc4_ctm_atomic_check ⟨some ⟨List.replicate 9 0⟩, 2⟩
        [⟨none, some ⟨List.replicate 9 0⟩, 0⟩] = .error (-EINVAL) := by
  constructor
  · exact ctm_first_claim_decides.1 ⟨none, 0⟩ [] [⟨none, some ⟨List.replicate 9 0⟩, 1⟩]
      ⟨none, some ⟨List.replicate 9 0⟩, 0⟩ ⟨List.replicate 9 0⟩
      (by simp) rfl (by simp) (by decide) (Or.inl rfl)
  · exact ctm_first_claim_decides.2 ⟨some ⟨List.replicate 9 0⟩, 2⟩ [] []
      ⟨none, some ⟨List.replicate 9 0⟩, 0⟩ ⟨List.replicate 9 0⟩
      (by simp) rfl (by simp) (by decide) (by decide)

/-- C10: the check runs a complete release pass before any claim is
examined, so a transaction with one output releasing its matrix and one
other output enabling a representable matrix is accepted with owner slot
`assigned_channel + 1` of the enabling output, in either processing
order. -/
theorem ctm_release_before_claim :
    ∀ (pub : vc4_ctm_state) (l1 l2 l3 : List CtmCrtcEntry) (d e : CtmCrtcEntry)
      (m : drm_color_ctm),
      (∀ x ∈ l1, x.new_ctm = x.old_ctm) → (∀ x ∈ l2, x.new_ctm = x.old_ctm) →
      (∀ x ∈ l3, x.new_ctm = x.old_ctm) →
      d.old_ctm ≠ none → d.new_ctm = none →
      e.old_ctm = none → e.new_ctm = some m → ctm_matrix_ok m.matrix = true →
      vc4_ctm_atomic_check pub (l1 ++ d :: (l2 ++ e :: l3))
        = .ok (some ⟨some m, e.assigned_channel + 1⟩)
      ∧ vc4_ctm_atomic_check pub (l1 ++ e :: (l2 ++ d :: l3))
        = .ok (some ⟨some m, e.assigned_channel + 1⟩) := by
  intro pub l1 l2 l3 d e m h1 h2 h3 hdo hdn heo hen hok
  have hdne : d.new_ctm ≠ d.old_ctm := by rw [hdn]; exact fun h => hdo h.symm
  have hene : e.new_ctm ≠ e.old_ctm := by rw [hen, heo]; simp
  have hd : disablesMatrix d := ⟨hdn, hdo⟩
  have hnd1 : ∀ x ∈ l1, ¬ disablesMatrix x := fun x hx hdd =>
    hdd.2 ((h1 x hx).symm.trans hdd.1)
  have hnd2 : ∀ x ∈ l2, ¬ disablesMatrix x := fun x hx hdd =>
    hdd.2 ((h2 x hx).symm.trans hdd.1)
  have hnd3 : ∀ x ∈ l3, ¬ disablesMatrix x := fun x hx hdd =>
    hdd.2 ((h3 x hx).symm.trans hdd.1)
  have hnde : ¬ disablesMatrix e := fun hdd =>
    Option.some_ne_none m (hen.symm.trans hdd.1)
  constructor
  · have hst0 : ctm_disable_pass pub (l1 ++ d :: (l2 ++ e :: l3)) = some ⟨pub.ctm, 0⟩ := by
      apply ctm_disable_pass_single pub l1 (l2 ++ e :: l3) d hnd1 _ hd
      intro x hx
      rcases List.mem_append.mp hx with hx2 | hx3
      · exact hnd2 x hx2
      · rcases List.mem_cons.mp hx3 with rfl | hx4
        · exact hnde
        · exact hnd3 x hx4
    rw [vc4_ctm_atomic_check, hst0,
      ctm_claim_pass_skip_prefix pub l1 _ _ h1,
      ctm_claim_pass_cons_none pub _ d _ hdne hdn,
      show some (vc4_get_ctm_state (some (⟨pub.ctm, 0⟩ : vc4_ctm_state)) pub)
        = some (⟨pub.ctm, 0⟩ : vc4_ctm_state) from rfl,
      ctm_claim_pass_skip_prefix pub l2 _ _ h2,
      ctm_claim_pass_cons_claim pub _ e l3 m hene hen
        (by simp [vc4_get_ctm_state, vc4_ctm_duplicate_state]) hok]
  · have hst0 : ctm_disable_pass pub (l1 ++ e :: (l2 ++ d :: l3)) = some ⟨pub.ctm, 0⟩ := by
      have heq : l1 ++ e :: (l2 ++ d :: l3) = (l1 ++ e :: l2) ++ d :: l3 := by simp
      rw [heq]
      apply ctm_disable_pass_single pub (l1 ++ e :: l2) l3 d _ hnd3 hd
      intro x hx
      rcases List.mem_append.mp hx with hx1 | hx2
      · exact hnd1 x hx1
      · rcases List.mem_cons.mp hx2 with rfl | hx3
        · exact hnde
        · exact hnd2 x hx3
    rw [vc4_ctm_atomic_check, hst0,
      ctm_claim_pass_skip_prefix pub l1 _ _ h1,
      ctm_claim_pass_cons_claim pub _ e (l2 ++ d :: l3) m hene hen
        (by simp [vc4_get_ctm_state, vc4_ctm_duplicate_state]) hok]

/-- Witness for `ctm_release_before_claim`: one output releases, another
enables, in both orders, starting from a published owner slot 1. -/
theorem ctm_release_before_claim_witness :
    vc4_ctm_atomic_check ⟨some ⟨List.replicate 9 0⟩, 1⟩
        [⟨some ⟨List.replicate 9 0⟩, none, 0⟩, ⟨none, some ⟨List.replicate 9 0⟩, 2⟩]
      = .ok (some ⟨some ⟨List.replicate 9 0⟩, 3⟩)
    ∧ vc4_ctm_atomic_check ⟨some ⟨List.replicate 9 0⟩, 1⟩
        [⟨none, some ⟨List.replicate 9 0⟩, 2⟩, ⟨some ⟨List.replicate 9 0⟩, none, 0⟩]
      = .ok (some ⟨some ⟨List.replicate 9 0⟩, 3⟩) :=
  ctm_release_before_claim ⟨some ⟨List.replicate 9 0⟩, 1⟩ [] [] []
    ⟨some ⟨List.replicate 9 0⟩, none, 0⟩ ⟨none, some ⟨List.replicate 9 0⟩, 2⟩
    ⟨List.replicate 9 0⟩ (by simp) (by simp) (by simp) (by simp) rfl rfl rfl (by decide)


/-! ## HVS channel (pixelvalve) muxing -/

/-- `struct vc4_hvs_state`: the channel-pool private object. -/
structure vc4_hvs_state where
  unassigned_channels : Nat
  num_outputs : Nat
  fifo_load : Nat
  core_clock_rate : Nat
deriving DecidableEq

/-- One CRTC as seen by `vc4_pv_muxing_atomic_check`: the static
`hvs_available_channels` mask and the old/new CRTC-state fields the loop
reads and writes.  A duplicated new state starts with the old state's
`assigned_channel`. -/
structure MuxEntry where
  hvs_available_channels : Nat
  old_enable : Bool
  new_enable : Bool
  old_assigned_channel : Nat
  new_assigned_channel : Nat
  new_update_muxing : Bool
deriving DecidableEq

/-- Loop body of `vc4_pv_muxing_atomic_check` for one CRTC whose `enable`
changed: disabling returns the old channel to the pool and marks the CRTC
disabled; enabling intersects the pool with the CRTC's reachable channels,
rejects with `-EINVAL` when empty, and otherwise assigns the lowest-numbered
free matching channel (`ffs(matching_channels) - 1`). -/
def vc4_pv_muxing_step (hvs : vc4_hvs_state) (e : MuxEntry) :
    Except Int (vc4_hvs_state × MuxEntry) :=
  if e.old_enable = e.new_enable then .ok (hvs, e)
  else if e.new_enable = false then
    .ok ({ hvs with
           unassigned_channels := hvs.unassigned_channels ||| BIT e.old_assigned_channel },
         { e with new_update_muxing := true,
                  new_assigned_channel := VC4_HVS_CHANNEL_DISABLED })
  else
    let matching := hvs.unassigned_channels &&& e.hvs_available_channels
    if matching ≠ 0 then
      let channel := ffs matching - 1
      .ok ({ hvs with
             unassigned_channels := hvs.unassigned_channels &&& NOT_U32 (BIT channel) },
           { e with new_update_muxing := true, new_assigned_channel := channel })
    else .error (-EINVAL)

/-- `vc4_pv_muxing_atomic_check`: fold the loop body over the CRTCs in the
transaction, threading the private channel-pool state and collecting the
updated CRTC states.  When `firmware_kms` is set every CRTC is skipped. -/
def vc4_pv_muxing_run (firmware_kms : Bool) (hvs : vc4_hvs_state) :
    List MuxEntry → Except Int (vc4_hvs_state × List MuxEntry)
  | [] => .ok (hvs, [])
  | e :: rest =>
    if firmware_kms then
      match vc4_pv_muxing_run firmware_kms hvs rest with
      | .ok (h, l) => .ok (h, e :: l)
      | .error err => .error err
    else
      match vc4_pv_muxing_step hvs e with
      | .ok (h, e') =>
        match vc4_pv_muxing_run firmware_kms h rest with
        | .ok (h2, l) => .ok (h2, e' :: l)
        | .error err => .error err
      | .error err => .error err

/-- C2: behaviour of the muxing check for one output whose enabled state
changes.  Disabling returns the previously assigned channel to the free set
immediately, marks the output unassigned and sets the muxing-update flag;
enabling rejects with `-EINVAL` exactly when `free ∩ allowed` is empty, and
otherwise assigns the lowest-numbered candidate channel, removes it from the
free set and sets the muxing-update flag. -/
theorem pv_muxing_step_correct (hvs : vc4_hvs_state) (e : MuxEntry)
    (h32 : hvs.unassigned_channels < U32) (hch : e.old_enable ≠ e.new_enable) :
    (e.new_enable = false →
      vc4_pv_muxing_step hvs e
        = .ok ({ hvs with
                 unassigned_channels := hvs.unassigned_channels ||| BIT e.old_assigned_channel },
               { e with new_update_muxing := true,
                        new_assigned_channel := VC4_HVS_CHANNEL_DISABLED })
      ∧ ∀ b, (hvs.unassigned_channels ||| BIT e.old_assigned_channel).testBit b
          = (hvs.unassigned_channels.testBit b || decide (b = e.old_assigned_channel)))
    ∧ (e.new_enable = true →
        (hvs.unassigned_channels &&& e.hvs_available_channels = 0 →
          vc4_pv_muxing_step hvs e = .error (-EINVAL))
        ∧ (hvs.unassigned_channels &&& e.hvs_available_channels ≠ 0 →
            let matching := hvs.unassigned_channels &&& e.hvs_available_channels
            let channel := ffs matching - 1
            vc4_pv_muxing_step hvs e
              = .ok ({ hvs with
                       unassigned_channels :=
                         hvs.unassigned_channels &&& NOT_U32 (BIT channel) },
                     { e with new_update_muxing := true,
                              new_assigned_channel := channel })
            ∧ matching.testBit channel = true
            ∧ (∀ b < channel, matching.testBit b = false)
            ∧ ∀ b, (hvs.unassigned_channels &&& NOT_U32 (BIT channel)).testBit b
                = (hvs.unassigned_channels.testBit b && !decide (b = channel)))) := by
  have hne : ¬ e.old_enable = e.new_enable := hch
  constructor
  · intro hdis
    constructor
    · rw [vc4_pv_muxing_step, if_neg hne, hdis]
      simp
    · intro b
      rw [BIT, Nat.testBit_lor, Nat.testBit_two_pow]
      by_cases hb : e.old_assigned_channel = b
      · subst hb; simp
      · have : ¬ b = e.old_assigned_channel := fun h => hb h.symm
        simp [hb, this]
  · intro hen
    constructor
    · intro hmz
      rw [vc4_pv_muxing_step, if_neg hne, hen]
      simp only [Bool.true_eq_false, if_neg (by simp : ¬ (True = False ∨ False)), hmz]
      simp
    · intro hmnz
      have hmgoal : vc4_pv_muxing_step hvs e
          = .ok ({ hvs with
                   unassigned_channels :=
                     hvs.unassigned_channels
                       &&& NOT_U32 (BIT (ffs (hvs.unassigned_channels &&& e.hvs_available_channels) - 1)) },
                 { e with new_update_muxing := true,
                          new_assigned_channel :=
                            ffs (hvs.unassigned_channels &&& e.hvs_available_channels) - 1 }) := by
        rw [vc4_pv_muxing_step, if_neg hne, hen]
        simp only [Bool.true_eq_false, if_neg (by simp : ¬ (True = False ∨ False))]
        rw [if_pos hmnz]
        simp
      have hffs : ffs (hvs.unassigned_channels &&& e.hvs_available_channels) - 1
          = ctz (hvs.unassigned_channels &&& e.hvs_available_channels) := by
        rw [ffs, if_neg hmnz]
        omega
      have hlt32 : ctz (hvs.unassigned_channels &&& e.hvs_available_channels) < 32 :=
        ctz_lt_of_lt_two_pow hmnz (lt_of_le_of_lt Nat.and_le_left h32)
      refine ⟨hmgoal, ?_, ?_, ?_⟩
      · rw [hffs]; exact ctz_testBit hmnz
      · intro b hb
        rw [hffs] at hb
        exact ctz_least hmnz b hb
      · intro b
        rw [hffs, Nat.testBit_land, testBit_NOT_U32 _ _ hlt32]
        by_cases hb32 : b < 32
        · simp [hb32]
        · have : hvs.unassigned_channels.testBit b = false :=
            Nat.testBit_eq_false_of_lt
              (lt_of_lt_of_le h32 (Nat.pow_le_pow_right (by norm_num) (by omega)))
          simp [this, hb32]

/-- Witness for `pv_muxing_step_correct`: disabling the output on channel 1
returns bit 1 to the pool; enabling an output that can reach channels
{1, 2} when only {0, 2} are free assigns channel 2 and clears its bit. -/
theorem pv_muxing_step_correct_witness :
    vc4_pv_muxing_step ⟨7, 0, 0, 0⟩ ⟨7, true, false, 1, 1, false⟩
      = .ok (⟨7, 0, 0, 0⟩, ⟨7, true, false, 1, VC4_HVS_CHANNEL_DISABLED, true⟩)
    ∧ vc4_pv_muxing_step ⟨5, 0, 0, 0⟩ ⟨6, false, true, 9, 9, false⟩
      = .ok (⟨1, 0, 0, 0⟩, ⟨6, false, true, 9, 2, true⟩) := by
  constructor
  · exact ((pv_muxing_step_correct ⟨7, 0, 0, 0⟩ ⟨7, true, false, 1, 1, false⟩
      (by decide) (by decide)).1 rfl).1
  · have h := ((pv_muxing_step_correct ⟨5, 0, 0, 0⟩ ⟨6, false, true, 9, 9, false⟩
      (by decide) (by decide)).2 rfl).2 (by decide)
    exact h.1

/-! ## Channel-pool invariant (claim C4) -/

/-- Published view of a CRTC before the transaction: (enabled, channel). -/
def MuxEntry.oldView (e : MuxEntry) : Bool × Nat := (e.old_enable, e.old_assigned_channel)

/-- View of a CRTC as published after a successful transaction. -/
def MuxEntry.newView (e : MuxEntry) : Bool × Nat := (e.new_enable, e.new_assigned_channel)

/-- Two CRTCs never share a channel while both enabled. -/
def enabledRel (p q : Bool × Nat) : Prop := p.1 = true → q.1 = true → p.2 ≠ q.2

/-- The channel-pool invariant: the free mask covers only real channels,
enabled CRTCs sit on real channels outside the free mask, no two enabled
CRTCs share a channel, and every channel is either free or owned by an
enabled CRTC. -/
def ChannelInvariant (mask : Nat) (crtcs : List (Bool × Nat)) : Prop :=
  mask < 2 ^ HVS_NUM_CHANNELS
  ∧ (∀ p ∈ crtcs, p.1 = true → p.2 < HVS_NUM_CHANNELS ∧ mask.testBit p.2 = false)
  ∧ List.Pairwise enabledRel crtcs
  ∧ ∀ b, b < HVS_NUM_CHANNELS → mask.testBit b = true ∨ ∃ p ∈ crtcs, p.1 = true ∧ p.2 = b

theorem channelInvariant_perm {mask : Nat} {l1 l2 : List (Bool × Nat)} (hp : l1.Perm l2)
    (hinv : ChannelInvariant mask l1) : ChannelInvariant mask l2 := by
  obtain ⟨h1, h2, h3, h4⟩ := hinv
  refine ⟨h1, ?_, ?_, ?_⟩
  · intro p hmem hp1
    exact h2 p (hp.mem_iff.mpr hmem) hp1
  · exact (List.Perm.pairwise_iff (fun h ha hb => (h hb ha).symm) hp).mp h3
  · intro b hb
    rcases h4 b hb with h | ⟨p, hpm, hpe⟩
    · exact Or.inl h
    · exact Or.inr ⟨p, hp.mem_iff.mp hpm, hpe⟩

theorem channelInvariant_cons_disabled {mask : Nat} {x : Bool × Nat} {r : List (Bool × Nat)}
    (hx : x.1 = false) (hinv : ChannelInvariant mask r) :
    ChannelInvariant mask (x :: r) := by
  obtain ⟨h1, h2, h3, h4⟩ := hinv
  refine ⟨h1, ?_, ?_, ?_⟩
  · intro p hmem hp1
    rcases List.mem_cons.mp hmem with rfl | hm
    · rw [hx] at hp1; exact absurd hp1 (by simp)
    · exact h2 p hm hp1
  · refine List.pairwise_cons.mpr ⟨?_, h3⟩
    intro y _ hx1
    rw [hx] at hx1
    exact absurd hx1 (by simp)
  · intro b hb
    rcases h4 b hb with h | ⟨p, hpm, hpe⟩
    · exact Or.inl h
    · exact Or.inr ⟨p, List.mem_cons_of_mem x hpm, hpe⟩

theorem channelInvariant_drop_disabled {mask : Nat} {x : Bool × Nat} {r : List (Bool × Nat)}
    (hx : x.1 = false) (hinv : ChannelInvariant mask (x :: r)) :
    ChannelInvariant mask r := by
  obtain ⟨h1, h2, h3, h4⟩ := hinv
  refine ⟨h1, ?_, (List.pairwise_cons.mp h3).2, ?_⟩
  · intro p hmem hp1
    exact h2 p (List.mem_cons_of_mem x hmem) hp1
  · intro b hb
    rcases h4 b hb with h | ⟨p, hpm, hpe⟩
    · exact Or.inl h
    · rcases List.mem_cons.mp hpm with rfl | hm
      · rw [hx] at hpe; exact absurd hpe.1 (by simp)
      · exact Or.inr ⟨p, hm, hpe⟩

/-- Releasing an enabled CRTC's channel back to the pool keeps the
invariant over the remaining CRTCs. -/
theorem channelInvariant_disable {mask ch : Nat} {r : List (Bool × Nat)}
    (hinv : ChannelInvariant mask ((true, ch) :: r)) :
    ChannelInvariant (mask ||| BIT ch) r := by
  obtain ⟨h1, h2, h3, h4⟩ := hinv
  have hhead := h2 (true, ch) (List.mem_cons_self _ _) rfl
  have hch3 : ch < HVS_NUM_CHANNELS := hhead.1
  have hrel := (List.pairwise_cons.mp h3).1
  refine ⟨?_, ?_, (List.pairwise_cons.mp h3).2, ?_⟩
  · refine Nat.or_lt_two_pow h1 ?_
    calc BIT ch ≤ 2 ^ 2 := Nat.pow_le_pow_right (by norm_num) (by
          rw [HVS_NUM_CHANNELS] at hch3; omega)
    _ < 2 ^ HVS_NUM_CHANNELS := by rw [HVS_NUM_CHANNELS]; norm_num
  · intro p hmem hp1
    obtain ⟨hplt, hpbit⟩ := h2 p (List.mem_cons_of_mem _ hmem) hp1
    refine ⟨hplt, ?_⟩
    have hne : ch ≠ p.2 := hrel p hmem rfl hp1
    rw [BIT, Nat.testBit_lor, hpbit, Nat.testBit_two_pow]
    simp [hne]
  · intro b hb
    rcases h4 b hb with h | ⟨p, hpm, hpe⟩
    · exact Or.inl (by rw [Nat.testBit_lor, h]; rfl)
    · rcases List.mem_cons.mp hpm with rfl | hm
      · refine Or.inl ?_
        rw [BIT, Nat.testBit_lor, Nat.testBit_two_pow]
        have : ch = b := hpe.2
        simp [this]
      · exact Or.inr ⟨p, hm, hpe⟩

/-- Assigning the lowest free matching channel to a newly enabled CRTC
keeps the invariant, with the channel removed from the pool. -/
theorem channelInvariant_enable {mask avail : Nat} {r : List (Bool × Nat)}
    (hinv : ChannelInvariant mask r) (hm : mask &&& avail ≠ 0) :
    ChannelInvariant (mask &&& NOT_U32 (BIT (ctz (mask &&& avail))))
      ((true, ctz (mask &&& avail)) :: r) := by
  obtain ⟨h1, h2, h3, h4⟩ := hinv
  have hbit : (mask &&& avail).testBit (ctz (mask &&& avail)) = true := ctz_testBit hm
  have hmaskbit : mask.testBit (ctz (mask &&& avail)) = true := by
    rw [Nat.testBit_land] at hbit
    exact ((Bool.and_eq_true _ _).mp hbit).1
  have hch3 : ctz (mask &&& avail) < HVS_NUM_CHANNELS := by
    by_contra hcon
    push_neg at hcon
    have : mask.testBit (ctz (mask &&& avail)) = false :=
      Nat.testBit_eq_false_of_lt
        (lt_of_lt_of_le h1 (Nat.pow_le_pow_right (by norm_num) hcon))
    rw [hmaskbit] at this
    simp at this
  have hch32 : ctz (mask &&& avail) < 32 := by
    rw [HVS_NUM_CHANNELS] at hch3; omega
  have hbits : ∀ b, (mask &&& NOT_U32 (BIT (ctz (mask &&& avail)))).testBit b
      = (mask.testBit b && !decide (b = ctz (mask &&& avail))) := by
    intro b
    rw [Nat.testBit_land, testBit_NOT_U32 _ _ hch32]
    by_cases hb32 : b < 32
    · simp [hb32]
    · have : mask.testBit b = false :=
        Nat.testBit_eq_false_of_lt
          (lt_of_lt_of_le h1 (Nat.pow_le_pow_right (by norm_num) (by
            rw [HVS_NUM_CHANNELS]; omega)))
      simp [this, hb32]
  refine ⟨lt_of_le_of_lt Nat.and_le_left h1, ?_, ?_, ?_⟩
  · intro p hmem hp1
    rcases List.mem_cons.mp hmem with rfl | hmem2
    · exact ⟨hch3, by rw [hbits]; simp⟩
    · obtain ⟨hplt, hpbit⟩ := h2 p hmem2 hp1
      exact ⟨hplt, by rw [hbits, hpbit]; rfl⟩
  · refine List.pairwise_cons.mpr ⟨?_, h3⟩
    intro y hy _ hy1
    obtain ⟨-, hybit⟩ := h2 y hy hy1
    intro heq
    rw [← heq, hmaskbit] at hybit
    simp at hybit
  · intro b hb
    by_cases hbc : b = ctz (mask &&& avail)
    · exact Or.inr ⟨(true, ctz (mask &&& avail)), List.mem_cons_self _ _, rfl, hbc.symm⟩
    · rcases h4 b hb with h | ⟨p, hpm, hpe⟩
      · refine Or.inl ?_
        rw [hbits, h]
        simp [hbc]
      · exact Or.inr ⟨p, List.mem_cons_of_mem _ hpm, hpe⟩

theorem pv_muxing_run_cons (hvs : vc4_hvs_state) (e : MuxEntry) (rest : List MuxEntry) :
    vc4_pv_muxing_run false hvs (e :: rest)
      = match vc4_pv_muxing_step hvs e with
        | .ok (h, e') =>
          match vc4_pv_muxing_run false h rest with
          | .ok (h2, l) => .ok (h2, e' :: l)
          | .error err => .error err
        | .error err => .error err := rfl

/-- Core preservation argument: running the muxing loop over the CRTCs of a
transaction preserves the channel-pool invariant, taking the touched CRTCs
from their published (old) views to their transaction (new) views while the
untouched CRTCs `rest` stay fixed. -/
theorem pv_muxing_run_preserves :
    ∀ (l : List MuxEntry) (hvs : vc4_hvs_state) (rest : List (Bool × Nat))
      (h' : vc4_hvs_state) (l' : List MuxEntry),
      ChannelInvariant hvs.unassigned_channels (l.map MuxEntry.oldView ++ rest) →
      (∀ e ∈ l, e.new_assigned_channel = e.old_assigned_channel) →
      vc4_pv_muxing_run false hvs l = .ok (h', l') →
      ChannelInvariant h'.unassigned_channels (l'.map MuxEntry.newView ++ rest) := by
  intro l
  induction l with
  | nil =>
    intro hvs rest h' l' hinv hdup hrun
    rw [vc4_pv_muxing_run] at hrun
    injection hrun with hp
    have hh : _ = h' := congrArg Prod.fst hp
    have hl : _ = l' := congrArg Prod.snd hp
    subst hh
    subst hl
    simpa using hinv
  | cons e tl ih =>
    intro hvs rest h' l' hinv hdup hrun
    rw [pv_muxing_run_cons] at hrun
    have hinv' : ChannelInvariant hvs.unassigned_channels
        (MuxEntry.oldView e :: (tl.map MuxEntry.oldView ++ rest)) := by
      simpa using hinv
    have hdup' : ∀ x ∈ tl, x.new_assigned_channel = x.old_assigned_channel :=
      fun x hx => hdup x (List.mem_cons_of_mem e hx)
    by_cases hskip : e.old_enable = e.new_enable
    · rw [vc4_pv_muxing_step, if_pos hskip] at hrun
      simp only at hrun
      cases hrec : vc4_pv_muxing_run false hvs tl with
      | error err => rw [hrec] at hrun; exact absurd hrun (by simp)
      | ok p =>
        obtain ⟨h2, ltl⟩ := p
        rw [hrec] at hrun
        simp only at hrun
        injection hrun with hp
        have hh : _ = h' := congrArg Prod.fst hp
        have hl : _ = l' := congrArg Prod.snd hp
        subst hh
        subst hl
        have hview : MuxEntry.newView e = MuxEntry.oldView e := by
          rw [MuxEntry.newView, MuxEntry.oldView, hdup e (List.mem_cons_self e tl), hskip]
        have hinv2 := channelInvariant_perm
          (@List.perm_middle _ _ (tl.map MuxEntry.oldView) rest).symm hinv'
        have hres := ih hvs (MuxEntry.oldView e :: rest) h2 ltl hinv2 hdup' hrec
        have hfin := channelInvariant_perm
          (@List.perm_middle _ _ (ltl.map MuxEntry.newView) rest) hres
        simpa [hview] using hfin
    · rw [vc4_pv_muxing_step, if_neg hskip] at hrun
      by_cases hdis : e.new_enable = false
      · -- disabling: old_enable must be true
        have hold : e.old_enable = true := by
          cases ho : e.old_enable
          · exact absurd (ho.trans hdis.symm) hskip
          · rfl
        rw [if_pos hdis] at hrun
        simp only at hrun
        cases hrec : vc4_pv_muxing_run false
            { hvs with unassigned_channels :=
                hvs.unassigned_channels ||| BIT e.old_assigned_channel } tl with
        | error err => rw [hrec] at hrun; exact absurd hrun (by simp)
        | ok p =>
          obtain ⟨h2, ltl⟩ := p
          rw [hrec] at hrun
          simp only at hrun
          injection hrun with hp
          have hh : _ = h' := congrArg Prod.fst hp
          have hl : _ = l' := congrArg Prod.snd hp
          subst hh
          subst hl
          have hhead : MuxEntry.oldView e = (true, e.old_assigned_channel) := by
            rw [MuxEntry.oldView, hold]
          rw [hhead] at hinv'
          have hcore := channelInvariant_disable hinv'
          have hx : ((false, VC4_HVS_CHANNEL_DISABLED) : Bool × Nat).1 = false := rfl
          have hcons := channelInvariant_cons_disabled hx hcore
          have hinv2 := channelInvariant_perm
            (@List.perm_middle _ _ (tl.map MuxEntry.oldView) rest).symm hcons
          have hres := ih _ ((false, VC4_HVS_CHANNEL_DISABLED) :: rest) h2 ltl hinv2 hdup' hrec
          have hfin := channelInvariant_perm
            (@List.perm_middle _ _ (ltl.map MuxEntry.newView) rest) hres
          have hview : MuxEntry.newView
              { e with new_update_muxing := true,
                       new_assigned_channel := VC4_HVS_CHANNEL_DISABLED }
              = (false, VC4_HVS_CHANNEL_DISABLED) := by
            rw [MuxEntry.newView]
            simp [hdis]
          simpa [hview] using hfin
      · -- enabling
        have hen : e.new_enable = true := by
          cases h : e.new_enable
          · exact absurd h hdis
          · rfl
        have hold : e.old_enable = false := by
          cases h : e.old_enable
          · rfl
          · exact absurd (h.trans hen.symm) hskip
        rw [if_neg hdis] at hrun
        simp only at hrun
        by_cases hm : hvs.unassigned_channels &&& e.hvs_available_channels ≠ 0
        · rw [if_pos hm] at hrun
          simp only at hrun
          have hffs : ffs (hvs.unassigned_channels &&& e.hvs_available_channels) - 1
              = ctz (hvs.unassigned_channels &&& e.hvs_available_channels) := by
            rw [ffs, if_neg hm]; omega
          rw [hffs] at hrun
          cases hrec : vc4_pv_muxing_run false
              { hvs with unassigned_channels :=
                  hvs.unassigned_channels &&& NOT_U32 (BIT
                    (ctz (hvs.unassigned_channels &&& e.hvs_available_channels))) } tl with
          | error err => rw [hrec] at hrun; exact absurd hrun (by simp)
          | ok p =>
            obtain ⟨h2, ltl⟩ := p
            rw [hrec] at hrun
            simp only at hrun
            injection hrun with hp
            have hh : _ = h' := congrArg Prod.fst hp
            have hl : _ = l' := congrArg Prod.snd hp
            subst hh
            subst hl
            have hhead : (MuxEntry.oldView e).1 = false := by
              rw [MuxEntry.oldView, hold]
            have hdropped := channelInvariant_drop_disabled hhead hinv'
            have hcore := channelInvariant_enable hdropped hm
            have hinv2 := channelInvariant_perm
              (@List.perm_middle _ _ (tl.map MuxEntry.oldView) rest).symm hcore
            have hres := ih _
              ((true, ctz (hvs.unassigned_channels &&& e.hvs_available_channels)) :: rest)
              h2 ltl hinv2 hdup' hrec
            have hfin := channelInvariant_perm
              (@List.perm_middle _ _ (ltl.map MuxEntry.newView) rest) hres
            have hview : MuxEntry.newView
                { e with new_update_muxing := true,
                         new_assigned_channel :=
                           ctz (hvs.unassigned_channels &&& e.hvs_available_channels) }
                = (true, ctz (hvs.unassigned_channels &&& e.hvs_available_channels)) := by
              rw [MuxEntry.newView]
              simp [hen]
            simpa [hview] using hfin
        · rw [if_neg hm] at hrun
          exact absurd hrun (by simp)

/-- States of the published channel pool and CRTC set reachable from the
initial state (`vc4_hvs_channels_obj_init` sets all `HVS_NUM_CHANNELS`
channels free, every CRTC disabled) through accepted muxing transactions.
A transaction touches an arbitrary subset `l` of the CRTCs (`rest` is
untouched); its duplicated new CRTC states start with the old channels; on
success the transaction's views are published. -/
inductive MuxReachable : Nat → List (Bool × Nat) → Prop where
  | init (crtcs : List (Bool × Nat)) (h : ∀ p ∈ crtcs, p.1 = false) :
      MuxReachable (GENMASK (HVS_NUM_CHANNELS - 1) 0) crtcs
  | step (mask : Nat) (crtcs : List (Bool × Nat)) (no fl cc : Nat)
      (l l' : List MuxEntry) (rest : List (Bool × Nat)) (h' : vc4_hvs_state)
      (hprev : MuxReachable mask crtcs)
      (hperm : crtcs.Perm (l.map MuxEntry.oldView ++ rest))
      (hdup : ∀ e ∈ l, e.new_assigned_channel = e.old_assigned_channel)
      (hrun : vc4_pv_muxing_run false ⟨mask, no, fl, cc⟩ l = .ok (h', l')) :
      MuxReachable h'.unassigned_channels (l'.map MuxEntry.newView ++ rest)

/-- C4: starting from all channels free and no output assigned, every state
reached through accepted transactions satisfies the channel-pool invariant:
the free set and the channels of enabled outputs are disjoint, jointly cover
all `HVS_NUM_CHANNELS` channels, and no channel is shared. -/
theorem mux_channel_invariant (mask : Nat) (crtcs : List (Bool × Nat))
    (h : MuxReachable mask crtcs) : ChannelInvariant mask crtcs := by
  induction h with
  | init crtcs hdis =>
    refine ⟨by decide, ?_, ?_, ?_⟩
    · intro p hp hp1
      rw [hdis p hp] at hp1
      exact absurd hp1 (by simp)
    · induction crtcs with
      | nil => exact List.Pairwise.nil
      | cons x r ihr =>
        refine List.pairwise_cons.mpr ⟨?_, ?_⟩
        · intro y _ hx1
          rw [hdis x (List.mem_cons_self x r)] at hx1
          exact absurd hx1 (by simp)
        · exact ihr fun p hp => hdis p (List.mem_cons_of_mem x hp)
    · intro b hb
      refine Or.inl ?_
      rw [HVS_NUM_CHANNELS] at hb
      interval_cases b <;> decide
  | step mask crtcs no fl cc l l' rest h' hprev hperm hdup hrun ihprev =>
    exact pv_muxing_run_preserves l ⟨mask, no, fl, cc⟩ rest h' l'
      (channelInvariant_perm hperm ihprev) hdup hrun

/-- Witness for `mux_channel_invariant`: from the initial state with two
disabled CRTCs, one transaction enables a CRTC that can reach any channel;
it receives channel 0 and the invariant holds for the published result. -/
theorem mux_channel_invariant_witness :
    ChannelInvariant 6 [(true, 0), (false, 9)] :=
  mux_channel_invariant 6 [(true, 0), (false, 9)]
    (MuxReachable.step (GENMASK (HVS_NUM_CHANNELS - 1) 0) [(false, 5), (false, 9)]
      0 0 0 [⟨7, false, true, 5, 5, false⟩] [⟨7, false, true, 5, 0, true⟩] [(false, 9)]
      ⟨6, 0, 0, 0⟩
      (MuxReachable.init [(false, 5), (false, 9)] (by decide))
      (List.Perm.refl _) (by decide) rfl)

/-! ## Bandwidth load tracker -/

/-- `struct vc4_load_tracker_state` driver fields (u64 counters). -/
structure vc4_load_tracker_state where
  hvs_load : Nat
  membus_load : Nat
deriving DecidableEq

/-- One plane as seen by `vc4_load_tracker_atomic_check`: whether the
old/new plane states have a framebuffer and a CRTC, and their
membus/HVS load contributions. -/
structure PlaneEntry where
  old_fb : Bool
  old_crtc : Bool
  old_membus_load : Nat
  old_hvs_load : Nat
  new_fb : Bool
  new_crtc : Bool
  new_membus_load : Nat
  new_hvs_load : Nat
deriving DecidableEq

/-- Loop body of `vc4_load_tracker_atomic_check` for one plane: subtract the
old state's contribution when it was active (`fb && crtc`), add the new
state's contribution when it is active; u64 arithmetic. -/
def load_tracker_step (s : vc4_load_tracker_state) (p : PlaneEntry) : vc4_load_tracker_state :=
  let s1 := if p.old_fb && p.old_crtc then
      { s with membus_load := sub64 s.membus_load p.old_membus_load,
               hvs_load := sub64 s.hvs_load p.old_hvs_load }
    else s
  if p.new_fb && p.new_crtc then
      { s1 with membus_load := add64 s1.membus_load p.new_membus_load,
                hvs_load := add64 s1.hvs_load p.new_hvs_load }
  else s1

/-- The counter-update loop of `vc4_load_tracker_atomic_check`. -/
def load_tracker_update (ls : vc4_load_tracker_state) (planes : List PlaneEntry) :
    vc4_load_tracker_state :=
  planes.foldl load_tracker_step ls

/-- `vc4_load_tracker_atomic_check`: update the counters on the private
copy; when the tracker is disabled never reject; otherwise reject with
`-ENOSPC` when `membus_load` exceeds `SZ_1G + SZ_512M` or `hvs_load`
exceeds 240000000. -/
def vc4_load_tracker_atomic_check (load_tracker_enabled : Bool)
    (ls : vc4_load_tracker_state) (planes : List PlaneEntry) :
    Except Int vc4_load_tracker_state :=
  let ls := load_tracker_update ls planes
  if !load_tracker_enabled then .ok ls
  else if SZ_1G + SZ_512M < ls.membus_load then .error (-ENOSPC)
  else if 240000000 < ls.hvs_load then .error (-ENOSPC)
  else .ok ls

/-- Membus contribution of a plane's old state (0 when inactive). -/
def oldMembusContrib (p : PlaneEntry) : Nat :=
  if p.old_fb && p.old_crtc then p.old_membus_load else 0

/-- HVS contribution of a plane's old state (0 when inactive). -/
def oldHvsContrib (p : PlaneEntry) : Nat :=
  if p.old_fb && p.old_crtc then p.old_hvs_load else 0

/-- Membus contribution of a plane's new state (0 when inactive). -/
def newMembusContrib (p : PlaneEntry) : Nat :=
  if p.new_fb && p.new_crtc then p.new_membus_load else 0

/-- HVS contribution of a plane's new state (0 when inactive). -/
def newHvsContrib (p : PlaneEntry) : Nat :=
  if p.new_fb && p.new_crtc then p.new_hvs_load else 0

theorem sub64_cancel (a b : Nat) : (sub64 a b + b) % U64 = a % U64 := by
  rw [sub64, U64]
  have h64 : (0:Nat) < 2 ^ 64 := by norm_num
  omega

theorem add64_mod (a b : Nat) : add64 a b % U64 = (a + b) % U64 := by
  rw [add64]
  exact Nat.mod_mod_of_dvd _ dvd_rfl

theorem load_tracker_step_membus (s : vc4_load_tracker_state) (p : PlaneEntry) :
    (load_tracker_step s p).membus_load + oldMembusContrib p
      ≡ s.membus_load + newMembusContrib p [MOD U64] := by
  rw [load_tracker_step, oldMembusContrib, newMembusContrib, Nat.ModEq]
  by_cases ho : p.old_fb && p.old_crtc <;> by_cases hn : p.new_fb && p.new_crtc <;>
    simp [ho, hn, sub64, add64, U64] <;> omega

theorem load_tracker_step_hvs (s : vc4_load_tracker_state) (p : PlaneEntry) :
    (load_tracker_step s p).hvs_load + oldHvsContrib p
      ≡ s.hvs_load + newHvsContrib p [MOD U64] := by
  rw [load_tracker_step, oldHvsContrib, newHvsContrib, Nat.ModEq]
  by_cases ho : p.old_fb && p.old_crtc <;> by_cases hn : p.new_fb && p.new_crtc <;>
    simp [ho, hn, sub64, add64, U64] <;> omega

theorem load_tracker_update_membus :
    ∀ (planes : List PlaneEntry) (ls : vc4_load_tracker_state),
      (load_tracker_update ls planes).membus_load + (planes.map oldMembusContrib).sum
        ≡ ls.membus_load + (planes.map newMembusContrib).sum [MOD U64] := by
  intro planes
  induction planes with
  | nil => intro ls; rfl
  | cons p rest ih =>
    intro ls
    rw [load_tracker_update, List.foldl_cons]
    have h1 := ih (load_tracker_step ls p)
    rw [load_tracker_update] at h1
    have h2 := load_tracker_step_membus ls p
    calc (List.foldl load_tracker_step (load_tracker_step ls p) rest).membus_load
          + ((p :: rest).map oldMembusContrib).sum
        = (List.foldl load_tracker_step (load_tracker_step ls p) rest).membus_load
          + (rest.map oldMembusContrib).sum + oldMembusContrib p := by
          simp [List.map_cons, List.sum_cons]; ring
      _ ≡ (load_tracker_step ls p).membus_load + (rest.map newMembusContrib).sum
          + oldMembusContrib p [MOD U64] := Nat.ModEq.add_right _ h1
      _ = (load_tracker_step ls p).membus_load + oldMembusContrib p
          + (rest.map newMembusContrib).sum := by ring
      _ ≡ ls.membus_load + newMembusContrib p
          + (rest.map newMembusContrib).sum [MOD U64] := Nat.ModEq.add_right _ h2
      _ = ls.membus_load + ((p :: rest).map newMembusContrib).sum := by
          simp [List.map_cons, List.sum_cons]; ring

theorem load_tracker_update_hvs :
    ∀ (planes : List PlaneEntry) (ls : vc4_load_tracker_state),
      (load_tracker_update ls planes).hvs_load + (planes.map oldHvsContrib).sum
        ≡ ls.hvs_load + (planes.map newHvsContrib).sum [MOD U64] := by
  intro planes
  induction planes with
  | nil => intro ls; rfl
  | cons p rest ih =>
    intro ls
    rw [load_tracker_update, List.foldl_cons]
    have h1 := ih (load_tracker_step ls p)
    rw [load_tracker_update] at h1
    have h2 := load_tracker_step_hvs ls p
    calc (List.foldl load_tracker_step (load_tracker_step ls p) rest).hvs_load
          + ((p :: rest).map oldHvsContrib).sum
        = (List.foldl load_tracker_step (load_tracker_step ls p) rest).hvs_load
          + (rest.map oldHvsContrib).sum + oldHvsContrib p := by
          simp [List.map_cons, List.sum_cons]; ring
      _ ≡ (load_tracker_step ls p).hvs_load + (rest.map newHvsContrib).sum
          + oldHvsContrib p [MOD U64] := Nat.ModEq.add_right _ h1
      _ = (load_tracker_step ls p).hvs_load + oldHvsContrib p
          + (rest.map newHvsContrib).sum := by ring
      _ ≡ ls.hvs_load + newHvsContrib p
          + (rest.map newHvsContrib).sum [MOD U64] := Nat.ModEq.add_right _ h2
      _ = ls.hvs_load + ((p :: rest).map newHvsContrib).sum := by
          simp [List.map_cons, List.sum_cons]; ring

/-- C7: the load-tracker check updates the counters by subtracting every
previously active plane's contribution and adding every newly active
plane's contribution (u64 arithmetic); with enforcement off it always
succeeds, and with enforcement on it returns `-ENOSPC` exactly when the
updated membus counter exceeds `SZ_1G + SZ_512M` (1.5 G) or the updated HVS
counter exceeds 240000000. -/
theorem load_tracker_check_correct (enabled : Bool) (ls : vc4_load_tracker_state)
    (planes : List PlaneEntry) :
    ((load_tracker_update ls planes).membus_load + (planes.map oldMembusContrib).sum
        ≡ ls.membus_load + (planes.map newMembusContrib).sum [MOD U64])
    ∧ ((load_tracker_update ls planes).hvs_load + (planes.map oldHvsContrib).sum
        ≡ ls.hvs_load + (planes.map newHvsContrib).sum [MOD U64])
    ∧ vc4_load_tracker_atomic_check enabled ls planes
        = (if enabled = true ∧ (SZ_1G + SZ_512M < (load_tracker_update ls planes).membus_load
              ∨ 240000000 < (load_tracker_update ls planes).hvs_load)
           then .error (-ENOSPC)
           else .ok (load_tracker_update ls planes)) := by
  refine ⟨load_tracker_update_membus planes ls, load_tracker_update_hvs planes ls, ?_⟩
  rw [vc4_load_tracker_atomic_check]
  cases enabled
  · simp
  · simp only [Bool.not_true, Bool.false_eq_true, if_false]
    split_ifs with h1 h2 h3 h4 h5 <;> first | rfl | tauto

/-! ## Core clock rate derivation -/

/-- One CRTC as seen by `vc4_core_clock_atomic_check`: the old/new `active`
flags and per-CRTC HVS (FIFO) load. -/
structure ClkEntry where
  old_active : Bool
  old_hvs_load : Nat
  new_active : Bool
  new_hvs_load : Nat
deriving DecidableEq

/-- Loop body of `vc4_core_clock_atomic_check` for one CRTC: remove the old
state's output count and FIFO load when it was active, add the new state's
when it is active (`unsigned int` / `unsigned long` arithmetic). -/
def clk_step (h : vc4_hvs_state) (c : ClkEntry) : vc4_hvs_state :=
  let h1 := if c.old_active then
      { h with num_outputs := sub32 h.num_outputs 1,
               fifo_load := sub64 h.fifo_load c.old_hvs_load }
    else h
  if c.new_active then
      { h1 with num_outputs := add32 h1.num_outputs 1,
                fifo_load := add64 h1.fifo_load c.new_hvs_load }
  else h1

/-- The CRTC loop of `vc4_core_clock_atomic_check`. -/
def clk_update (hvs : vc4_hvs_state) (crtcs : List ClkEntry) : vc4_hvs_state :=
  crtcs.foldl clk_step hvs

/-- `vc4_core_clock_atomic_check`: update `num_outputs` and `fifo_load`,
derive `pixel_rate` from the load tracker's `hvs_load` scaled by 40% when
more than one output is active and 60% otherwise, and set
`core_clock_rate = max(cob_rate, pixel_rate)`.  Always succeeds. -/
def vc4_core_clock_atomic_check (load_state : vc4_load_tracker_state)
    (hvs : vc4_hvs_state) (crtcs : List ClkEntry) : Except Int vc4_hvs_state :=
  let h := clk_update hvs crtcs
  let cob_rate := h.fifo_load
  let pixel_rate :=
    if 1 < h.num_outputs then load_state.hvs_load * 40 % U64 / 100
    else load_state.hvs_load * 60 % U64 / 100
  .ok { h with core_clock_rate := max cob_rate pixel_rate }

/-- Number of CRTCs in the state that were active before the transaction. -/
def oldActiveCount (l : List ClkEntry) : Nat := l.countP (·.old_active)

/-- Number of CRTCs in the state that are active after the transaction. -/
def newActiveCount (l : List ClkEntry) : Nat := l.countP (·.new_active)

/-- Total FIFO load removed for previously active CRTCs. -/
def oldLoadSum (l : List ClkEntry) : Nat :=
  (l.map (fun c => if c.old_active then c.old_hvs_load else 0)).sum

/-- Total FIFO load added for newly active CRTCs. -/
def newLoadSum (l : List ClkEntry) : Nat :=
  (l.map (fun c => if c.new_active then c.new_hvs_load else 0)).sum

theorem clk_step_fields (h : vc4_hvs_state) (c : ClkEntry)
    (hb1 : h.num_outputs < U32)
    (hb2 : (if c.old_active then 1 else 0) ≤ h.num_outputs)
    (hb3 : h.num_outputs + (if c.new_active then 1 else 0) < U32)
    (hb4 : (if c.old_active then c.old_hvs_load else 0) ≤ h.fifo_load)
    (hb5 : h.fifo_load < U64)
    (hb6 : h.fifo_load + (if c.new_active then c.new_hvs_load else 0) < U64) :
    (clk_step h c).num_outputs
        = h.num_outputs - (if c.old_active then 1 else 0) + (if c.new_active then 1 else 0)
    ∧ (clk_step h c).fifo_load
        = h.fifo_load - (if c.old_active then c.old_hvs_load else 0)
            + (if c.new_active then c.new_hvs_load else 0)
    ∧ (clk_step h c).unassigned_channels = h.unassigned_channels
    ∧ (clk_step h c).core_clock_rate = h.core_clock_rate := by
  rw [U32] at hb1 hb3
  rw [U64] at hb5 hb6
  by_cases ho : c.old_active = true <;> by_cases hn : c.new_active = true <;>
    simp [ho, hn] at hb2 hb3 hb4 hb6 ⊢ <;>
    simp [clk_step, ho, hn, sub32, add32, sub64, add64, U32, U64] <;>
    omega

theorem clk_update_fields :
    ∀ (l : List ClkEntry) (hvs : vc4_hvs_state),
      hvs.num_outputs < U32 →
      oldActiveCount l ≤ hvs.num_outputs →
      hvs.num_outputs + newActiveCount l < U32 →
      oldLoadSum l ≤ hvs.fifo_load →
      hvs.fifo_load < U64 →
      hvs.fifo_load + newLoadSum l < U64 →
      (clk_update hvs l).num_outputs = hvs.num_outputs - oldActiveCount l + newActiveCount l
      ∧ (clk_update hvs l).fifo_load = hvs.fifo_load - oldLoadSum l + newLoadSum l
      ∧ (clk_update hvs l).unassigned_channels = hvs.unassigned_channels
      ∧ (clk_update hvs l).core_clock_rate = hvs.core_clock_rate := by
  intro l
  induction l with
  | nil =>
    intro hvs _ _ _ _ _ _
    simp [clk_update, oldActiveCount, newActiveCount, oldLoadSum, newLoadSum]
  | cons c tl ih =>
    intro hvs h1 h2 h3 h4 h5 h6
    have hcnO : oldActiveCount (c :: tl)
        = (if c.old_active then 1 else 0) + oldActiveCount tl := by
      by_cases hc : c.old_active = true <;> simp [oldActiveCount, List.countP_cons, hc] <;> omega
    have hcnN : newActiveCount (c :: tl)
        = (if c.new_active then 1 else 0) + newActiveCount tl := by
      by_cases hc : c.new_active = true <;> simp [newActiveCount, List.countP_cons, hc] <;> omega
    have hsO : oldLoadSum (c :: tl)
        = (if c.old_active then c.old_hvs_load else 0) + oldLoadSum tl := by
      simp [oldLoadSum]
    have hsN : newLoadSum (c :: tl)
        = (if c.new_active then c.new_hvs_load else 0) + newLoadSum tl := by
      simp [newLoadSum]
    rw [hcnO] at h2
    rw [hcnN] at h3
    rw [hsO] at h4
    rw [hsN] at h6
    obtain ⟨s1, s2, s3, s4⟩ := clk_step_fields hvs c h1 (by omega) (by omega) (by omega) h5
      (by omega)
    obtain ⟨t1, t2, t3, t4⟩ := ih (clk_step hvs c)
      (by rw [s1]; omega) (by rw [s1]; omega) (by rw [s1]; omega)
      (by rw [s2]; omega) (by rw [s2]; omega) (by rw [s2]; omega)
    have hfold : clk_update hvs (c :: tl) = clk_update (clk_step hvs c) tl := by
      rw [clk_update, List.foldl_cons]; rfl
    refine ⟨?_, ?_, ?_, ?_⟩
    · rw [hfold, t1, s1, hcnO, hcnN]; omega
    · rw [hfold, t2, s2, hsO, hsN]; omega
    · rw [hfold, t3, s3]
    · rw [hfold, t4, s4]

/-- C8: given in-range counters (no u32/u64 wrap, so the updated
`num_outputs` is the number of outputs active after the transaction), the
clock-rate step always succeeds, computes the pixel-rate term as the load
tracker's `hvs_load` times 40/100 when more than one output will be active
and times 60/100 otherwise, and sets the derived core clock rate to the
maximum of the aggregate FIFO load and that pixel-rate term. -/
theorem core_clock_check_correct (ls : vc4_load_tracker_state) (hvs : vc4_hvs_state)
    (crtcs : List ClkEntry)
    (h1 : hvs.num_outputs < U32)
    (h2 : oldActiveCount crtcs ≤ hvs.num_outputs)
    (h3 : hvs.num_outputs + newActiveCount crtcs < U32)
    (h4 : oldLoadSum crtcs ≤ hvs.fifo_load)
    (h5 : hvs.fifo_load < U64)
    (h6 : hvs.fifo_load + newLoadSum crtcs < U64)
    (h7 : ls.hvs_load * 60 < U64) :
    vc4_core_clock_atomic_check ls hvs crtcs
      = .ok { hvs with
              num_outputs := hvs.num_outputs - oldActiveCount crtcs + newActiveCount crtcs,
              fifo_load := hvs.fifo_load - oldLoadSum crtcs + newLoadSum crtcs,
              core_clock_rate :=
                max (hvs.fifo_load - oldLoadSum crtcs + newLoadSum crtcs)
                  (if 1 < hvs.num_outputs - oldActiveCount crtcs + newActiveCount crtcs
                   then ls.hvs_load * 40 / 100
                   else ls.hvs_load * 60 / 100) } := by
  obtain ⟨e1, e2, e3, e4⟩ := clk_update_fields crtcs hvs h1 h2 h3 h4 h5 h6
  have hm40 : ls.hvs_load * 40 % U64 = ls.hvs_load * 40 :=
    Nat.mod_eq_of_lt (lt_of_le_of_lt (Nat.mul_le_mul_left _ (by norm_num)) h7)
  have hm60 : ls.hvs_load * 60 % U64 = ls.hvs_load * 60 := Nat.mod_eq_of_lt h7
  simp only [vc4_core_clock_atomic_check]
  rw [hm40, hm60, e1, e2]
  congr 1
  rw [e3]

/-- Witness for `core_clock_check_correct`: one active output is replaced by
a heavier one; the derived clock is `max(80, 100*60/100) = 80`. -/
theorem core_clock_check_correct_witness :
    vc4_core_clock_atomic_check ⟨100, 0⟩ ⟨7, 1, 50, 0⟩ [⟨true, 50, true, 80⟩]
      = .ok ⟨7, 1, 80, 80⟩ :=
  core_clock_check_correct ⟨100, 0⟩ ⟨7, 1, 50, 0⟩ [⟨true, 50, true, 80⟩]
    (by decide) (by decide) (by decide) (by decide) (by decide) (by decide) (by decide)

/-! ## The composed atomic check and state publication (claim C3) -/

/-- The published ("current") versions of the three private resource
objects: channel pool, color-matrix unit, load tracker. -/
structure Published where
  hvs : vc4_hvs_state
  ctm : vc4_ctm_state
  load : vc4_load_tracker_state
deriving DecidableEq

/-- A proposed transaction: the CRTC and plane old/new snapshots consumed by
each check (the per-CRTC fields are split per check in this model), plus the
outcome of the external generic validation (`drm_atomic_helper_check`,
outside this core). -/
structure Txn where
  mux_crtcs : List MuxEntry
  ctm_crtcs : List CtmCrtcEntry
  planes : List PlaneEntry
  clk_crtcs : List ClkEntry
  generic_result : Except Int Unit

/-- `vc4_atomic_check`: the fixed check order — channel muxing, color
matrix, generic validation, load tracker, core clock.  Every check receives
the published state and mutates only a duplicated private copy; the
function returns the new private versions on success. -/
def vc4_atomic_check (firmware_kms load_tracker_enabled : Bool) (pub : Published)
    (t : Txn) : Except Int Published :=
  match vc4_pv_muxing_run firmware_kms pub.hvs t.mux_crtcs with
  | .error err => .error err
  | .ok (hvs1, _) =>
    match vc4_ctm_atomic_check pub.ctm t.ctm_crtcs with
    | .error err => .error err
    | .ok ctmSt =>
      match t.generic_result with
      | .error err => .error err
      | .ok _ =>
        match vc4_load_tracker_atomic_check load_tracker_enabled pub.load t.planes with
        | .error err => .error err
        | .ok load1 =>
          match vc4_core_clock_atomic_check load1 hvs1 t.clk_crtcs with
          | .error err => .error err
          | .ok hvs2 => .ok { hvs := hvs2, ctm := ctmSt.getD pub.ctm, load := load1 }

/-- Validation followed by the commit swap: on success the private versions
are published (`drm_atomic_helper_swap_state`); on rejection the private
copies are discarded and the published state is kept. -/
def vc4_process_transaction (firmware_kms load_tracker_enabled : Bool) (pub : Published)
    (t : Txn) : Published × Option Int :=
  match vc4_atomic_check firmware_kms load_tracker_enabled pub t with
  | .ok pub2 => (pub2, none)
  | .error err => (pub, some err)

/-- C3: whenever any check of the validation pipeline rejects the
transaction, the published channel-pool, color-matrix and load-tracker
states are unchanged: validation mutates only private duplicated copies and
publication happens only at the commit swap of an accepted transaction. -/
theorem rejected_transaction_preserves_published (firmware_kms load_tracker_enabled : Bool)
    (pub : Published) (t : Txn) (err : Int)
    (h : (vc4_process_transaction firmware_kms load_tracker_enabled pub t).2 = some err) :
    (vc4_process_transaction firmware_kms load_tracker_enabled pub t).1 = pub := by
  rw [vc4_process_transaction] at h ⊢
  cases hc : vc4_atomic_check firmware_kms load_tracker_enabled pub t with
  | ok p => rw [hc] at h; simp at h
  | error e => rfl

/-- Witness for `rejected_transaction_preserves_published`: a transaction
enabling an output that can reach no free channel is rejected with
`-EINVAL` and leaves the published state untouched. -/
theorem rejected_transaction_preserves_published_witness :
    (vc4_process_transaction false true
        ⟨⟨7, 0, 0, 0⟩, ⟨none, 0⟩, ⟨0, 0⟩⟩
        ⟨[⟨0, false, true, 0, 0, false⟩], [], [], [], .ok ()⟩).2 = some (-EINVAL)
    ∧ (vc4_process_transaction false true
        ⟨⟨7, 0, 0, 0⟩, ⟨none, 0⟩, ⟨0, 0⟩⟩
        ⟨[⟨0, false, true, 0, 0, false⟩], [], [], [], .ok ()⟩).1
      = ⟨⟨7, 0, 0, 0⟩, ⟨none, 0⟩, ⟨0, 0⟩⟩ :=
  ⟨rfl, rejected_transaction_preserves_published false true _ _ (-EINVAL) rfl⟩

/-! ## Commit gate (`vc4->async_modeset` semaphore, claim C9)

Each full-path transaction runs this program (program counter view of
`vc4_atomic_commit` and `vc4_atomic_complete_commit`):
pc 0: `down_interruptible(&vc4->async_modeset)` — blocks until the single
permit is free, then takes it; pc 1: `drm_atomic_helper_prepare_planes`
(failure releases the gate and aborts); pc 2: `wait_for_fences` on the
blocking path (failure cleans up, releases and aborts); pc 3:
`drm_atomic_helper_swap_state` — publication; pcs 4–17: the fourteen
hardware-application steps of `vc4_atomic_complete_commit` (mask underrun,
temporary clock raise, wait for dependencies, modeset disables, CTM commit,
muxing commit, planes, modeset enables, fake vblank, hw done, flip done,
plane cleanup, cleanup done, clock drop); pc 18: `up(&vc4->async_modeset)`
— the final action, identical on the blocking path and on the
`commit_work` background path (which runs the same
`vc4_atomic_complete_commit`); pc 19/20: done/aborted. -/

/-- System state: the semaphore permit and two transactions' counters. -/
structure GateSys where
  sem : Bool
  pc1 : Nat
  pc2 : Nat
deriving DecidableEq

/-- One transaction's transitions (semaphore before, pc before, semaphore
after, pc after). -/
inductive procStep : Bool → Nat → Bool → Nat → Prop where
  | acquire : procStep true 0 false 1
  | prep_ok (s : Bool) : procStep s 1 s 2
  | prep_fail (s : Bool) : procStep s 1 true 20
  | fence_ok (s : Bool) : procStep s 2 s 3
  | fence_fail (s : Bool) : procStep s 2 true 20
  | swap (s : Bool) : procStep s 3 s 4
  | hw (s : Bool) (i : Nat) (h4 : 4 ≤ i) (h17 : i ≤ 17) : procStep s i s (i + 1)
  | release (s : Bool) : procStep s 18 true 19

/-- Interleaving semantics: either transaction takes a step. -/
inductive sysStep : GateSys → GateSys → Prop where
  | left {b b' : Bool} {p p' q : Nat} (h : procStep b p b' p') :
      sysStep ⟨b, p, q⟩ ⟨b', p', q⟩
  | right {b b' : Bool} {p q q' : Nat} (h : procStep b q b' q') :
      sysStep ⟨b, p, q⟩ ⟨b', p, q'⟩

/-- Both transactions submitted, gate free. -/
def gateInit : GateSys := ⟨true, 0, 0⟩

/-- States reachable by any interleaving of the two transactions. -/
def GateReachable (s : GateSys) : Prop := Relation.ReflTransGen sysStep gateInit s

/-- The transaction holds the commit gate (acquired, not yet released). -/
def holdsGate (pc : Nat) : Prop := 1 ≤ pc ∧ pc ≤ 18

/-- The transaction is inside its hardware-application phase. -/
def hwPhase (pc : Nat) : Prop := 4 ≤ pc ∧ pc ≤ 17

/-- Gate invariant: a free permit means nobody holds the gate, and at most
one transaction holds it. -/
def GateInv (s : GateSys) : Prop :=
  (s.sem = true → ¬ holdsGate s.pc1 ∧ ¬ holdsGate s.pc2)
  ∧ ¬ (holdsGate s.pc1 ∧ holdsGate s.pc2)

theorem gateInv_symm {b : Bool} {p q : Nat} (h : GateInv ⟨b, p, q⟩) : GateInv ⟨b, q, p⟩ := by
  obtain ⟨hs, hmut⟩ := h
  exact ⟨fun hb => ⟨(hs hb).2, (hs hb).1⟩, fun hh => hmut ⟨hh.2, hh.1⟩⟩

theorem gateInv_proc {b b' : Bool} {p p' q : Nat} (h : procStep b p b' p')
    (hs : b = true → ¬ holdsGate p ∧ ¬ holdsGate q)
    (hmut : ¬ (holdsGate p ∧ holdsGate q)) :
    (b' = true → ¬ holdsGate p' ∧ ¬ holdsGate q) ∧ ¬ (holdsGate p' ∧ holdsGate q) := by
  simp only [holdsGate] at hs hmut ⊢
  cases h with
  | acquire =>
    have hq := hs rfl
    refine ⟨fun hb => by simp at hb, by omega⟩
  | prep_ok s => exact ⟨fun hb => by have := hs hb; omega, by omega⟩
  | prep_fail s => exact ⟨fun _ => by omega, by omega⟩
  | fence_ok s => exact ⟨fun hb => by have := hs hb; omega, by omega⟩
  | fence_fail s => exact ⟨fun _ => by omega, by omega⟩
  | swap s => exact ⟨fun hb => by have := hs hb; omega, by omega⟩
  | hw s i h4 h17 => exact ⟨fun hb => by have := hs hb; omega, by omega⟩
  | release s => exact ⟨fun _ => by omega, by omega⟩

theorem gateInv_reachable (s : GateSys) (h : GateReachable s) : GateInv s := by
  rw [GateReachable] at h
  induction h with
  | refl =>
    refine ⟨fun _ => ⟨?_, ?_⟩, ?_⟩ <;> simp [gateInit, holdsGate]
  | tail hab hbc ih =>
    cases hbc with
    | left hp =>
      obtain ⟨hs, hmut⟩ := ih
      exact gateInv_proc hp hs hmut
    | right hp =>
      exact gateInv_symm (gateInv_proc hp (gateInv_symm ih).1 (gateInv_symm ih).2)

/-- C9: the commit gate is taken before publication and released only as the
final action after all fourteen hardware-application steps, on both the
blocking and the background execution paths (both run the same program
above); consequently in every reachable interleaving of two full-path
transactions their hardware-application phases are mutually exclusive —
the second never begins before the first has completed. -/
theorem commit_gate_mutual_exclusion (s : GateSys) (h : GateReachable s) :
    ¬ (hwPhase s.pc1 ∧ hwPhase s.pc2) := by
  obtain ⟨-, hmut⟩ := gateInv_reachable s h
  intro hh
  obtain ⟨h1, h2⟩ := hh
  rw [hwPhase] at h1 h2
  exact hmut ⟨⟨by omega, by omega⟩, ⟨by omega, by omega⟩⟩

/-- Witness for `commit_gate_mutual_exclusion`: the state where the first
transaction has published and entered its hardware phase while the second
still waits on the gate is reachable, and the exclusion holds there. -/
theorem commit_gate_mutual_exclusion_witness :
    GateReachable ⟨false, 4, 0⟩ ∧ ¬ (hwPhase 4 ∧ hwPhase 0) := by
  have hreach : GateReachable ⟨false, 4, 0⟩ := by
    refine Relation.ReflTransGen.tail (Relation.ReflTransGen.tail
      (Relation.ReflTransGen.tail (Relation.ReflTransGen.tail Relation.ReflTransGen.refl
        (sysStep.left procStep.acquire))
        (sysStep.left (procStep.prep_ok false)))
      (sysStep.left (procStep.fence_ok false)))
      (sysStep.left (procStep.swap false))
  exact ⟨hreach, commit_gate_mutual_exclusion ⟨false, 4, 0⟩ hreach⟩
